import Mathlib

/-!
Verification of the logfmtr logging library (Go) against its design
specification.  The Go source is shallowly embedded: pure string routines
become Lean functions, the deferred/memoized logger-materialization protocol
becomes an explicit world-state model, and the process-wide registries
(verbosity, default options, disabled names) become explicit record state.
Go machine integers are modelled as unbounded Int, with the explicit int32
conversion in SetVerbosity modelled by reduction modulo 2^32.
-/

namespace Logfmtr

/-- A Go interface value as it occurs among log keys/values: a string, a
value with a custom Stringer rendering, a non-nil error with a message, the
nil interface, or any other value together with its generic fmt.Sprint
rendering. -/
inductive GoVal
  | str (s : String)
  | stringer (s : String)
  | err (s : String)
  | nilv
  | other (s : String)
deriving Repr, DecidableEq

/-- Escape one character the way Go strconv double-quoting does for
printable ASCII input plus the common escapes. -/
def goQuoteChar (c : Char) : String :=
  if c = '"' then "\\\""
  else if c = '\\' then "\\\\"
  else if c = '\n' then "\\n"
  else if c = '\t' then "\\t"
  else if c = '\r' then "\\r"
  else String.singleton c

/-- Go fmt %q of a string (restricted to printable ASCII input plus common
escapes, which covers every value this development evaluates). -/
def goQuote (s : String) : String :=
  "\"" ++ String.join (s.data.map goQuoteChar) ++ "\""

/-- Whether a string contains a space character, as Go ContainsAny with a
single-space char set reports. -/
def hasSpace (s : String) : Bool :=
  s.data.any (fun c => c = ' ')

/-- The source quote function: wrap in Go %q double quotes when the string
contains a space character, otherwise return it unchanged. -/
def quote (s : String) : String :=
  if hasSpace s then goQuote s else s

/-- The source stringify function: a string is used verbatim, a Stringer
uses its rendering, an error uses its message, and anything else (including
the nil interface, which does not match the error case of the Go type
switch) falls back to the generic fmt.Sprint rendering; the result is then
quoted if needed.  fmt.Sprint of the nil interface is the literal text
enclosed in angle brackets. -/
def stringify : GoVal → String
  | .str s => quote s
  | .stringer s => quote s
  | .err s => quote s
  | .nilv => quote "<nil>"
  | .other s => quote s

def colorDefault : String := "\x1b[0m"

def colorRed : String := "\x1b[1;31m"

def colorGreen : String := "\x1b[1;32m"

def colorYellow : String := "\x1b[1;33m"

def colorBlue : String := "\x1b[1;34m"

/-- The core value type of the sink-based logger: destination writer
(modelled as an abstract identifier), composed name, accumulated context
text, and the formatting configuration.  Field defaults are the Go zero
values of the core struct. -/
structure Core where
  w : Nat := 0
  name : String := ""
  values : String := ""
  humanize : Bool := false
  tsFormat : String := ""
  nameDelim : String := ""
  colorize : Bool := false
  addCaller : Bool := false
  callerSkip : Int := 0
deriving Repr, DecidableEq

/-- The zero core value, as built by taking the address of an empty core
struct literal in Go. -/
def coreZero : Core := {}

/-- The source key function: colorize a key (error red, logger and caller
blue, anything else yellow) only when the colorize flag is set. -/
def Core.key (c : Core) (s : String) : String :=
  if !c.colorize then s
  else if s = "error" then colorRed ++ s ++ colorDefault
  else if s = "logger" ∨ s = "caller" then colorBlue ++ s ++ colorDefault
  else colorYellow ++ s ++ colorDefault

/-- The source flatten function: walk the key/value list two at a time,
emitting key=value tokens separated by single spaces; an odd trailing key is
paired with the empty string. -/
def Core.flatten (c : Core) : List GoVal → String
  | [] => ""
  | [k] => c.key (stringify k) ++ "=" ++ stringify (GoVal.str "")
  | [k, v] => c.key (stringify k) ++ "=" ++ stringify v
  | k :: v :: rest => c.key (stringify k) ++ "=" ++ stringify v ++ " " ++ c.flatten rest

/-- Pair up an alternating key/value list; an odd trailing key is paired
with the empty string value, mirroring the flatten loop. -/
def pairUp : List GoVal → List (GoVal × GoVal)
  | [] => []
  | [k] => [(k, GoVal.str "")]
  | k :: v :: rest => (k, v) :: pairUp rest

/-- Join tokens with single spaces, following the wording of the spec
contract for the flattener output. -/
def joinSpace : List String → String
  | [] => ""
  | [t] => t
  | t :: rest => t ++ " " ++ joinSpace rest

/-- One key=value token as the flatten loop renders it, including key
colorization. -/
def colorTok (c : Core) (kv : GoVal × GoVal) : String :=
  c.key (stringify kv.1) ++ "=" ++ stringify kv.2

/-- One plain key=value token, computable from the key/value pair alone with
no configuration: the call-time text of the spec contract. -/
def plainTok (kv : GoVal × GoVal) : String :=
  stringify kv.1 ++ "=" ++ stringify kv.2

theorem pairUp_cons_ne_nil (a : GoVal) (l : List GoVal) : pairUp (a :: l) ≠ [] := by
  cases l <;> simp [pairUp]

theorem joinSpace_cons (t : String) (ts : List String) (h : ts ≠ []) :
    joinSpace (t :: ts) = t ++ " " ++ joinSpace ts := by
  cases ts with
  | nil => exact absurd rfl h
  | cons a l => rfl

theorem flatten_eq_joinSpace (c : Core) : ∀ kvs : List GoVal,
    c.flatten kvs = joinSpace ((pairUp kvs).map (colorTok c))
  | [] => rfl
  | [_] => rfl
  | [_, _] => rfl
  | k :: v :: x :: rest => by
      have ih := flatten_eq_joinSpace c (x :: rest)
      have hne : (pairUp (x :: rest)).map (colorTok c) ≠ [] := by
        simp [pairUp_cons_ne_nil]
      calc c.flatten (k :: v :: x :: rest)
          = colorTok c (k, v) ++ " " ++ c.flatten (x :: rest) := rfl
        _ = colorTok c (k, v) ++ " " ++ joinSpace ((pairUp (x :: rest)).map (colorTok c)) := by
              rw [ih]
        _ = joinSpace (((k, v) :: pairUp (x :: rest)).map (colorTok c)) := by
              rw [List.map_cons, joinSpace_cons _ _ hne]
        _ = joinSpace ((pairUp (k :: v :: x :: rest)).map (colorTok c)) := rfl

theorem key_of_not_colorize (c : Core) (h : c.colorize = false) (s : String) :
    c.key s = s := by
  simp [Core.key, h]

theorem colorTok_eq_plainTok (c : Core) (h : c.colorize = false) (kv : GoVal × GoVal) :
    colorTok c kv = plainTok kv := by
  simp [colorTok, plainTok, key_of_not_colorize c h]

theorem pairUp_odd_last : ∀ (kvs : List GoVal) (k : GoVal),
    kvs.length % 2 = 1 → kvs.getLast? = some k →
    (pairUp kvs).getLast? = some (k, GoVal.str "")
  | [], _, h, _ => by simp at h
  | [a], k, _, hl => by
      simp [pairUp] at hl ⊢
      simpa using hl
  | [a, b], _, h, _ => by simp at h
  | a :: b :: x :: rest, k, h, hl => by
      have h2 : (x :: rest).length % 2 = 1 := by
        simp [List.length_cons] at h ⊢
        omega
      have hl2 : (x :: rest).getLast? = some k := by
        rw [List.getLast?_cons_cons, List.getLast?_cons_cons] at hl
        exact hl
      have ih := pairUp_odd_last (x :: rest) k h2 hl2
      have hne := pairUp_cons_ne_nil x rest
      match hpu : pairUp (x :: rest) with
      | [] => exact absurd hpu hne
      | p :: ps =>
        rw [hpu] at ih
        calc (pairUp (a :: b :: x :: rest)).getLast?
            = ((a, b) :: pairUp (x :: rest)).getLast? := rfl
          _ = ((a, b) :: p :: ps).getLast? := by rw [hpu]
          _ = (p :: ps).getLast? := List.getLast?_cons_cons
          _ = some (k, GoVal.str "") := ih

/-- Claim C8: flatten of the empty sequence is the empty string; otherwise
flatten yields key=value tokens joined by single spaces in input order, and
an odd-length sequence pairs the trailing key with an empty-string value
rather than failing. -/
theorem c8_flatten_contract (c : Core) (kvs : List GoVal) (hc : c.colorize = false) :
    c.flatten [] = "" ∧
    c.flatten kvs = joinSpace ((pairUp kvs).map plainTok) ∧
    (∀ k : GoVal, kvs.length % 2 = 1 → kvs.getLast? = some k →
      (pairUp kvs).getLast? = some (k, GoVal.str "")) := by
  refine ⟨rfl, ?_, fun k h hl => pairUp_odd_last kvs k h hl⟩
  rw [flatten_eq_joinSpace]
  congr 1
  exact List.map_congr_left fun kv _ => colorTok_eq_plainTok c hc kv

/-- Witness for claim C8 at a concrete core and an odd-length key/value
list. -/
theorem c8_flatten_contract_witness :
    coreZero.flatten [GoVal.str "a", GoVal.str "one two", GoVal.str "b"] =
      "a=\"one two\" b=" ∧
    (pairUp [GoVal.str "a", GoVal.str "one two", GoVal.str "b"]).getLast? =
      some (GoVal.str "b", GoVal.str "") := by
  have h := c8_flatten_contract coreZero
    [GoVal.str "a", GoVal.str "one two", GoVal.str "b"] rfl
  refine ⟨?_, h.2.2 (GoVal.str "b") (by decide) (by decide)⟩
  rw [h.2.1]
  decide

/-- The source appendName derivation: a no-op for an empty name, otherwise
append the name to the current one using the configured delimiter. -/
def Core.appendName (c : Core) (name : String) : Core :=
  if name = "" then c
  else if c.name = "" then { c with name := name }
  else { c with name := c.name ++ c.nameDelim ++ name }

/-- The source appendValues derivation: a no-op for empty text, otherwise
append the text to the accumulated context, space-joined. -/
def Core.appendValues (c : Core) (values : String) : Core :=
  if values = "" then c
  else if c.values = "" then { c with values := values }
  else { c with values := c.values ++ " " ++ values }

/-- The Options record; the writer is modelled as an abstract destination
identifier (the nil-writer panic guard of the source is outside this
model since writers here are plain identifiers).  Field defaults are the
Go zero values. -/
structure Options where
  writer : Nat := 0
  humanize : Bool := false
  colorize : Bool := false
  timestampFormat : String := ""
  nameDelim : String := ""
  addCaller : Bool := false
  callerSkip : Int := 0
deriving Repr, DecidableEq

/-- The source default options: stdout (writer id 0), a fixed-fraction
RFC3339-style timestamp layout, and a dot name delimiter. -/
def defaultOptions : Options :=
  { writer := 0
    timestampFormat := "2006-01-02T15:04:05.000000000Z07:00"
    nameDelim := "." }

/-- The source applyOptions: copy every option field onto the core, with
colorize effective only when humanize is also set. -/
def Core.applyOptions (c : Core) (opts : Options) : Core :=
  { c with
    w := opts.writer
    humanize := opts.humanize
    tsFormat := opts.timestampFormat
    nameDelim := opts.nameDelim
    colorize := opts.colorize && opts.humanize
    addCaller := opts.addCaller
    callerSkip := opts.callerSkip }

/-- The process-wide registry state: the global verbosity int32 cell, the
copy-on-write disabled-name set (modelled as a list with membership
semantics of the Go map of true entries), and the fast-path non-empty
flag.  Defaults are the process-start values. -/
structure Registry where
  gv : Int := 0
  disabled : List String := []
  anyDisabled : Bool := false
deriving Repr, DecidableEq

/-- Reduction of an unbounded integer to the int32 value Go stores when
converting: two's-complement truncation modulo 2^32 (the numerals are 2^31
and 2^32). -/
def wrap32 (v : Int) : Int :=
  (v + 2147483648) % 4294967296 - 2147483648

/-- The source SetVerbosity: atomically swap the global int32 verbosity
cell with the int32 conversion of the argument, returning the old value. -/
def setVerbosity (r : Registry) (v : Int) : Registry × Int :=
  ({ r with gv := wrap32 v }, r.gv)

/-- The source setLoggerDisabledStatus: rebuild the disabled-name map
without the given name, re-adding it when disabling, and refresh the
fast-path flag from emptiness of the new map. -/
def setLoggerDisabledStatus (r : Registry) (name : String) (disabled : Bool) : Registry :=
  let next := (r.disabled.filter (fun k => k != name)) ++ (if disabled then [name] else [])
  { r with disabled := next, anyDisabled := !next.isEmpty }

def disableLogger (r : Registry) (name : String) : Registry :=
  setLoggerDisabledStatus r name true

def enableLogger (r : Registry) (name : String) : Registry :=
  setLoggerDisabledStatus r name false

/-- The enabled check of the sink (after materialization): false when the
level exceeds the global verbosity; true when the composed name is empty or
nothing is disabled; otherwise the name must not be in the disabled set. -/
def enabledFor (r : Registry) (name : String) (level : Int) : Bool :=
  if level > r.gv then false
  else if name = "" ∨ r.anyDisabled = false then true
  else !(r.disabled.contains name)

/-- Modelled from the spec: the facade handle of the logr v1 API (external
to this repository) carrying a sink reference and the verbosity offset
accumulated from V calls; spec 4.1 states that V adds its delta to the
accumulated verbosity offset, and that offset is the level the facade
passes to the sink. -/
structure LogrLogger where
  sinkId : Nat := 0
  level : Int := 0
deriving Repr, DecidableEq

/-- Modelled from the spec: V returns a new facade handle with the delta
added to the accumulated verbosity offset. -/
def LogrLogger.v (l : LogrLogger) (delta : Int) : LogrLogger :=
  { l with level := l.level + delta }

/-- Apply a chain of V calls in order. -/
def vChain (l : LogrLogger) (ds : List Int) : LogrLogger :=
  ds.foldl LogrLogger.v l

theorem wrap32_of_range (g : Int) (h1 : -2147483648 ≤ g) (h2 : g < 2147483648) :
    wrap32 g = g := by
  unfold wrap32
  omega

/-- Claim C6 as stated is false: SetVerbosity truncates its argument to
int32, so for a threshold just below the int32 range the stored threshold
becomes the maximal int32 and a level that exceeds the requested threshold
is still reported enabled.  Concretely, after SetVerbosity(-2^31 - 1),
Enabled(0) returns true although 0 exceeds -2^31 - 1. -/
theorem c6_counterexample :
    (0 : Int) > -2147483649 ∧
    enabledFor (setVerbosity ({} : Registry) (-2147483649)).1 "" 0 = true := by
  constructor
  · decide
  · have hw : wrap32 (-2147483649) = 2147483647 := by unfold wrap32; decide
    simp [enabledFor, setVerbosity, hw]

/-- Claim C6 (amended to thresholds in the int32 range): after
SetVerbosity(g) with -2^31 <= g < 2^31, Enabled(v) is false on every handle
whenever v exceeds g, for all (possibly negative) levels v; a level not
exceeding g is enabled (for an unnamed handle); and verbosity deltas
accumulated via V compose additively with the level, so a negative delta
can re-enable verbosity. -/
theorem c6_verbosity_threshold (r : Registry) (g : Int)
    (h1 : -2147483648 ≤ g) (h2 : g < 2147483648) :
    (∀ (name : String) (v : Int), g < v →
      enabledFor (setVerbosity r g).1 name v = false) ∧
    (∀ v : Int, v ≤ g → enabledFor (setVerbosity r g).1 "" v = true) ∧
    (∀ (l : LogrLogger) (ds : List Int), (vChain l ds).level = l.level + ds.sum) := by
  have hg : (setVerbosity r g).1.gv = g := by
    simp [setVerbosity, wrap32_of_range g h1 h2]
  refine ⟨?_, ?_, ?_⟩
  · intro name v hv
    simp only [enabledFor, hg]
    rw [if_pos hv]
  · intro v hv
    simp only [enabledFor, hg]
    rw [if_neg (by omega)]
    simp
  · intro l ds
    induction ds generalizing l with
    | nil => simp [vChain]
    | cons d ds ih =>
        have := ih (l.v d)
        simp only [vChain, List.foldl_cons] at this ⊢
        rw [this]
        simp [LogrLogger.v, List.sum_cons]
        omega

/-- Witness for claim C6 (amended) at threshold 5, an exceeding level, a
non-exceeding level, and a V chain with a re-enabling negative delta. -/
theorem c6_verbosity_threshold_witness :
    enabledFor (setVerbosity ({} : Registry) 5).1 "worker" 6 = false ∧
    enabledFor (setVerbosity ({} : Registry) 5).1 "" 5 = true ∧
    (vChain { sinkId := 0, level := 3 } [4, -2]).level = 5 := by
  have h := c6_verbosity_threshold ({} : Registry) 5 (by decide) (by decide)
  refine ⟨h.1 "worker" 6 (by decide), h.2.1 5 (by decide), ?_⟩
  rw [h.2.2 { sinkId := 0, level := 3 } [4, -2]]
  decide

theorem append_ne_empty_left (a b : String) (h : a ≠ "") : a ++ b ≠ "" := by
  intro hab
  apply h
  have hd : a.data ++ b.data = [] := by
    rw [← String.data_append, hab]
  exact String.ext (List.append_eq_nil.mp hd).1

theorem contains_disable_self (r : Registry) (n : String) :
    (disableLogger r n).disabled.contains n = true := by
  simp [disableLogger, setLoggerDisabledStatus, List.contains_iff_exists_mem_beq]

theorem anyDisabled_disable (r : Registry) (n : String) :
    (disableLogger r n).anyDisabled = true := by
  simp only [disableLogger, setLoggerDisabledStatus, if_pos]
  cases r.disabled.filter (fun k => k != n) <;> simp [List.isEmpty]

theorem gv_disable (r : Registry) (n : String) : (disableLogger r n).gv = r.gv := rfl

/-- Claim C7: after DisableLogger(n) for a non-empty name n, at an
otherwise-enabled level, a handle whose composed name is exactly n is
disabled; a handle whose name was not disabled and differs from n stays
enabled; a child derived via WithName(m) has composed name n, delimiter, m
and is enabled exactly when that composed name is absent from the disabled
set; handles with an empty name are never disabled by name; and on a
registry with no prior disables, being disabled is equivalent to having
exactly the name n. -/
theorem c7_disable_exact_name (r : Registry) (n : String) (hn : n ≠ "")
    (lvl : Int) (hl : lvl ≤ r.gv) :
    enabledFor (disableLogger r n) n lvl = false ∧
    (∀ nm : String, nm ≠ "" → nm ≠ n → r.disabled.contains nm = false →
      enabledFor (disableLogger r n) nm lvl = true) ∧
    (∀ delim m : String, m ≠ "" →
      enabledFor (disableLogger r n) (n ++ delim ++ m) lvl =
        !((disableLogger r n).disabled.contains (n ++ delim ++ m))) ∧
    enabledFor (disableLogger r n) "" lvl = true ∧
    (r.disabled = [] → ∀ nm : String, nm ≠ "" →
      (enabledFor (disableLogger r n) nm lvl = false ↔ nm = n)) ∧
    (∀ c : Core, c.name = n → ∀ m : String, m ≠ "" →
      (c.appendName m).name = n ++ c.nameDelim ++ m) := by
  have hgv : ¬ lvl > (disableLogger r n).gv := by rw [gv_disable]; omega
  have hany := anyDisabled_disable r n
  refine ⟨?_, ?_, ?_, ?_, ?_, ?_⟩
  · simp only [enabledFor, if_neg hgv]
    rw [if_neg (by simp [hn, hany]), contains_disable_self]
    rfl
  · intro nm hnm hne hcon
    simp only [enabledFor, if_neg hgv]
    rw [if_neg (by simp [hnm, hany])]
    have : (disableLogger r n).disabled.contains nm = false := by
      simp only [disableLogger, setLoggerDisabledStatus]
      simp only [List.contains, List.elem_eq_mem, decide_eq_false_iff_not] at hcon ⊢
      intro hmem
      rcases List.mem_append.mp hmem with hf | hs
      · exact hcon (List.mem_of_mem_filter hf)
      · simp at hs
        exact hne hs
    rw [this]
    rfl
  · intro delim m hm
    have hne : n ++ delim ++ m ≠ "" :=
      append_ne_empty_left _ _ (append_ne_empty_left _ _ hn)
    simp only [enabledFor, if_neg hgv]
    rw [if_neg (by simp [hne, hany])]
  · simp only [enabledFor, if_neg hgv]
    simp
  · intro hrd nm hnm
    simp only [enabledFor, if_neg hgv]
    rw [if_neg (by simp [hnm, hany])]
    have hd : (disableLogger r n).disabled = [n] := by
      simp [disableLogger, setLoggerDisabledStatus, hrd]
    rw [hd]
    simp [List.contains_cons]
  · intro c hcn m hm
    simp [Core.appendName, hm, hcn, hn]

/-- Witness for claim C7: disabling the name europa on a fresh registry
disables exactly that composed name and not the derived europa.moon. -/
theorem c7_disable_exact_name_witness :
    enabledFor (disableLogger ({} : Registry) "europa") "europa" 0 = false ∧
    enabledFor (disableLogger ({} : Registry) "europa") "europa.moon" 0 = true ∧
    enabledFor (disableLogger ({} : Registry) "europa") "" 0 = true ∧
    ({ coreZero with name := "europa", nameDelim := "." }.appendName "moon").name =
      "europa" ++ "." ++ "moon" := by
  have h := c7_disable_exact_name ({} : Registry) "europa" (by decide) 0 (by decide)
  exact ⟨h.1, h.2.1 "europa.moon" (by decide) (by decide) rfl, h.2.2.2.1,
    h.2.2.2.2.2 { coreZero with name := "europa", nameDelim := "." } rfl "moon" (by decide)⟩

/-- Pad a string on the right with spaces to the given rune width, as Go
fmt left-justified string formatting does. -/
def padRightTo (s : String) (n : Nat) : String :=
  s ++ String.mk (List.replicate (n - s.length) ' ')

/-- Pad a string on the left with spaces to the given rune width, as Go
fmt right-justified string formatting does. -/
def padLeftTo (s : String) (n : Nat) : String :=
  String.mk (List.replicate (n - s.length) ' ') ++ s

/-- The write method of the core.  Wall-clock time is abstracted by the
formatTime argument (the rendering of the current UTC time under a given
layout string) and caller resolution by the callerStr argument, since both
are environment queries; everything else follows the source line by line.
The function returns the single byte string handed to the writer in one
Write call, newline included. -/
def Core.writeLine (c : Core) (formatTime : String → String) (callerStr : String)
    (level : Int) (humanPfx msg : String) (values : String) (extras : List GoVal) : String :=
  let head :=
    if c.humanize then
      let hp :=
        if c.colorize then
          if humanPfx = "error" then colorRed ++ humanPfx ++ colorDefault
          else colorGreen ++ humanPfx ++ " " ++ colorDefault
        else humanPfx
      let h0 := toString level ++ " " ++ padRightTo hp 5 ++ " | " ++
        padLeftTo (formatTime "15:04:05.000000") 15 ++ " | " ++ padRightTo msg 30
      let h1 := if c.name = "" then h0 else h0 ++ " " ++ c.key "logger" ++ "=" ++ c.name
      if c.addCaller then h1 ++ " " ++ c.key "caller" ++ "=" ++ callerStr else h1
    else
      let h0 := "level=" ++ toString level
      let h1 := if c.name = "" then h0 else h0 ++ " " ++ "logger=" ++ quote c.name
      let h2 := if c.tsFormat = "" then h1 else h1 ++ " " ++ "ts=" ++ quote (formatTime c.tsFormat)
      let h3 := h2 ++ " " ++ "msg=" ++ quote msg
      if c.addCaller then h3 ++ " " ++ "caller=" ++ callerStr else h3
  let t1 := if extras.isEmpty then head else head ++ " " ++ c.flatten extras
  let t2 := if c.values = "" then t1 else t1 ++ " " ++ c.values
  let t3 := if values = "" then t2 else t2 ++ " " ++ values
  t3 ++ "\n"

/-- The line written by the Info method of the sink: the caller-supplied
level, the info human prefix, and no extras. -/
def Core.infoLine (c : Core) (ft : String → String) (cal : String) (level : Int)
    (msg : String) (kvs : List GoVal) : String :=
  c.writeLine ft cal level "info" msg (c.flatten kvs) []

/-- The line written by the Error method of the sink: level written as the
constant zero, the error human prefix, and the error key/value pair passed
as extras. -/
def Core.errorLine (c : Core) (ft : String → String) (cal : String) (e : GoVal)
    (msg : String) (kvs : List GoVal) : String :=
  c.writeLine ft cal 0 "error" msg (c.flatten kvs) [GoVal.str "error", e]

/-- The derivation closures a child sink can carry, as data: the bodies of
the closures built by WithName, WithValues and WithCallDepth. -/
inductive Deriv
  | withName (name : String)
  | withValues (kvs : List GoVal)
  | withCallDepth (depth : Int)
deriving Repr, DecidableEq

/-- Run a derivation closure on a core, exactly as the corresponding Go
closure body does when invoked at materialization: WithValues flattens its
captured key/values with the materialized core and appends the text. -/
def applyDeriv : Deriv → Core → Core
  | .withName n, c => c.appendName n
  | .withValues kvs, c => c.appendValues (c.flatten kvs)
  | .withCallDepth d, c => { c with callerSkip := c.callerSkip + d }

theorem str_append_empty (s : String) : s ++ "" = s :=
  String.ext (by rw [String.data_append]; exact List.append_nil _)

theorem str_empty_append (s : String) : "" ++ s = s :=
  String.ext (by rw [String.data_append]; exact List.nil_append _)

theorem key_congr (c1 c2 : Core) (h : c1.colorize = c2.colorize) (s : String) :
    c1.key s = c2.key s := by
  unfold Core.key
  rw [h]

theorem flatten_congr (c1 c2 : Core) (h : c1.colorize = c2.colorize) (kvs : List GoVal) :
    c1.flatten kvs = c2.flatten kvs := by
  rw [flatten_eq_joinSpace, flatten_eq_joinSpace]
  congr 1
  exact List.map_congr_left fun kv _ => by
    simp [colorTok, key_congr c1 c2 h]

/-- Claim C3: the context text a WithValues derivation stores is exactly
the call-time flattening of the captured key/values — the token list is
computable from the key/value list alone (plainTok mentions no
configuration), colorize being the only configuration input, applied to
keys only; so the textual rendering of every value is fixed by the
WithValues argument list while key colorization follows the options
resolved at materialization. -/
theorem c3_withvalues_eager (c : Core) (kvs : List GoVal) :
    applyDeriv (Deriv.withValues kvs) c =
      c.appendValues (joinSpace ((pairUp kvs).map (colorTok c))) ∧
    (c.colorize = false →
      applyDeriv (Deriv.withValues kvs) c =
        c.appendValues (joinSpace ((pairUp kvs).map plainTok))) ∧
    (∀ cAlt : Core, cAlt.colorize = c.colorize → cAlt.flatten kvs = c.flatten kvs) := by
  refine ⟨?_, ?_, ?_⟩
  · show c.appendValues (c.flatten kvs) = _
    rw [flatten_eq_joinSpace]
  · intro hcol
    show c.appendValues (c.flatten kvs) = _
    rw [flatten_eq_joinSpace]
    congr 2
    exact List.map_congr_left fun kv _ => colorTok_eq_plainTok c hcol kv
  · intro cAlt h
    exact flatten_congr cAlt c h kvs

/-- Witness for claim C3 at a concrete core and key/value list: the stored
text equals the plain call-time flattening, and a core differing in every
non-colorize option flattens to the same text. -/
theorem c3_withvalues_eager_witness :
    applyDeriv (Deriv.withValues [GoVal.str "user", GoVal.str "you"]) coreZero =
      { coreZero with values := "user=you" } ∧
    ({ coreZero with
        humanize := true
        tsFormat := "x"
        name := "n"
        addCaller := true } : Core).flatten
        [GoVal.str "user", GoVal.str "you"] =
      coreZero.flatten [GoVal.str "user", GoVal.str "you"] := by
  have h := c3_withvalues_eager coreZero [GoVal.str "user", GoVal.str "you"]
  constructor
  · rw [h.2.1 rfl]
    decide
  · exact h.2.2 { coreZero with
      humanize := true
      tsFormat := "x"
      name := "n"
      addCaller := true } rfl

theorem writeLine_machine (c : Core) (ft : String → String) (cal : String)
    (lvl : Int) (hp msg values : String) (extras : List GoVal)
    (hh : c.humanize = false) :
    c.writeLine ft cal lvl hp msg values extras =
      "level=" ++ toString lvl ++
      (if c.name = "" then "" else " " ++ "logger=" ++ quote c.name) ++
      (if c.tsFormat = "" then "" else " " ++ "ts=" ++ quote (ft c.tsFormat)) ++
      (" " ++ "msg=" ++ quote msg) ++
      (if c.addCaller then " " ++ "caller=" ++ cal else "") ++
      (if extras = [] then "" else " " ++ c.flatten extras) ++
      (if c.values = "" then "" else " " ++ c.values) ++
      (if values = "" then "" else " " ++ values) ++ "\n" := by
  unfold Core.writeLine
  rw [hh]
  by_cases h1 : c.name = "" <;> by_cases h2 : c.tsFormat = "" <;>
    by_cases h3 : c.addCaller = true <;> cases extras <;>
    by_cases h5 : c.values = "" <;> by_cases h6 : values = "" <;>
    simp [h1, h2, h3, h5, h6, str_append_empty, str_empty_append, String.append_assoc]

theorem machine_line_head (c : Core) (ft : String → String) (cal : String)
    (lvl : Int) (hp msg values : String) (extras : List GoVal)
    (hh : c.humanize = false) :
    ∃ rest, c.writeLine ft cal lvl hp msg values extras =
      "level=" ++ toString lvl ++ rest := by
  rw [writeLine_machine c ft cal lvl hp msg values extras hh]
  refine ⟨(if c.name = "" then "" else " " ++ "logger=" ++ quote c.name) ++
    ((if c.tsFormat = "" then "" else " " ++ "ts=" ++ quote (ft c.tsFormat)) ++
      ((" " ++ "msg=" ++ quote msg) ++
        ((if c.addCaller = true then " " ++ "caller=" ++ cal else "") ++
          ((if extras = [] then "" else " " ++ c.flatten extras) ++
            ((if c.values = "" then "" else " " ++ c.values) ++
              ((if values = "" then "" else " " ++ values) ++ "\n")))))), ?_⟩
  simp only [String.append_assoc]

/-- Claim C10: in the sink-based implementation the Error path passes the
constant level zero to write, so every machine-layout Error line starts
with the token for level zero whatever verbosity offset the facade has
accumulated (the sink Error entry point receives no level at all), while an
Info line starts with the token of the caller-supplied level. -/
theorem c10_error_level_zero (c : Core) (ft : String → String) (cal : String)
    (hh : c.humanize = false) :
    (∀ (e : GoVal) (msg : String) (kvs : List GoVal), ∃ rest,
      c.errorLine ft cal e msg kvs = "level=0" ++ rest) ∧
    (∀ (lvl : Int) (msg : String) (kvs : List GoVal), ∃ rest,
      c.infoLine ft cal lvl msg kvs = "level=" ++ toString lvl ++ rest) := by
  constructor
  · intro e msg kvs
    obtain ⟨rest, hr⟩ :=
      machine_line_head c ft cal 0 "error" msg (c.flatten kvs) [GoVal.str "error", e] hh
    refine ⟨rest, ?_⟩
    rw [Core.errorLine, hr]
    have h0 : ("level=" ++ toString (0 : Int) : String) = "level=0" := by decide
    rw [h0]
  · intro lvl msg kvs
    exact machine_line_head c ft cal lvl "info" msg (c.flatten kvs) [] hh

/-- Witness for claim C10 at a concrete machine-layout core: the Error line
starts with level zero and the Info line at level 3 starts with level 3. -/
theorem c10_error_level_zero_witness :
    (∃ rest, coreZero.errorLine (fun _ => "T") "f.go:1" GoVal.nilv "boom" [] =
      "level=0" ++ rest) ∧
    (∃ rest, coreZero.infoLine (fun _ => "T") "f.go:1" 3 "hi" [] =
      "level=" ++ toString (3 : Int) ++ rest) := by
  have h := c10_error_level_zero coreZero (fun _ => "T") "f.go:1" rfl
  exact ⟨h.1 GoVal.nilv "boom" [], h.2 3 "hi" []⟩

/-- A sink node as constructed by the source: a root sink from New or
NewWithOptions (carrying an optional derivation, as NewNamed attaches one),
or a child sink from WithName, WithValues or WithCallDepth carrying its
parent reference and its derivation closure. -/
inductive Node
  | root (dfn : Option Deriv)
  | child (parent : Nat) (dfn : Deriv)
deriving Repr, DecidableEq

/-- The mutable state the sink tree lives in: the created sink nodes
(indexed by creation order), each sink's memoized core (none while
deferred, filled exactly once by the sync.Once gate), the registry default
options read at root materialization, and the stream of write calls
already issued, each one pair of destination and bytes. -/
structure World where
  nodes : List Node
  cores : List (Option Core)
  goptions : Options
  output : List (Nat × String)
deriving Repr, DecidableEq

/-- The core a root sink builds at materialization: a zero core, the
registry options applied, then the root's own derivation if it has one. -/
def rootCore (opts : Options) (dfn : Option Deriv) : Core :=
  match dfn with
  | none => coreZero.applyOptions opts
  | some d => applyDeriv d (coreZero.applyOptions opts)

/-- The value computed by the instantiate/copyCore recursion for sink i:
the memoized core if the sync.Once gate already ran, otherwise the root
core from the current registry options, or a value copy of the recursively
materialized parent core with this sink's derivation applied.  Fuel bounds
the parent-chain walk; none signals a dangling index or exhausted fuel,
neither of which occurs in a well-formed world with fuel above the index. -/
def instVal : Nat → World → Nat → Option Core
  | 0, _, _ => none
  | fuel + 1, w, i =>
    match w.cores[i]? with
    | none => none
    | some (some c) => some c
    | some none =>
      match w.nodes[i]? with
      | none => none
      | some (Node.root dfn) => some (rootCore w.goptions dfn)
      | some (Node.child p d) => (instVal fuel w p).map (applyDeriv d)

/-- The state update performed by the same recursion: every sink whose
sync.Once gate runs during the walk has its computed core memoized. -/
def instW : Nat → World → Nat → World
  | 0, w, _ => w
  | fuel + 1, w, i =>
    match w.cores[i]? with
    | none => w
    | some (some _) => w
    | some none =>
      match w.nodes[i]? with
      | none => w
      | some (Node.root dfn) =>
        { w with cores := w.cores.set i (some (rootCore w.goptions dfn)) }
      | some (Node.child p d) =>
        match instVal fuel w p with
        | none => instW fuel w p
        | some pc =>
          { instW fuel w p with
            cores := (instW fuel w p).cores.set i (some (applyDeriv d pc)) }

/-- Run the sync.Once-guarded instantiate of sink i, as the first statement
of Enabled, Info and Error does: returns the materialized core and the
world with every core memoized along the walked chain. -/
def World.touch (w : World) (i : Nat) : Option Core × World :=
  (instVal (i + 1) w i, instW (i + 1) w i)

/-- The source UseOptions: replace the registry default options. -/
def World.useOptions (w : World) (opts : Options) : World :=
  { w with goptions := opts }

/-- Create a new sink node (New, NewNamed, WithName, WithValues or
WithCallDepth), returning its index; the new sink starts deferred. -/
def World.newSink (w : World) (n : Node) : World × Nat :=
  ({ w with nodes := w.nodes ++ [n], cores := w.cores ++ [none] }, w.nodes.length)

/-- Create a chain of derived sinks below sink i, returning the world and
the index of the last sink of the chain. -/
def World.deriveChain : World → Nat → List Deriv → World × Nat
  | w, i, [] => (w, i)
  | w, i, d :: ds =>
    let p := w.newSink (Node.child i d)
    World.deriveChain p.1 p.2 ds

/-- The sink Info method: materialize, then write one line built from the
memoized core in a single write call appended to the output stream. -/
def World.sinkInfo (w : World) (ft : String → String) (cal : String) (i : Nat)
    (level : Int) (msg : String) (kvs : List GoVal) : World :=
  match w.touch i with
  | (none, w1) => w1
  | (some c, w1) => { w1 with output := w1.output ++ [(c.w, c.infoLine ft cal level msg kvs)] }

/-- The sink Error method: materialize, then write one line at level zero
with the error extras, in a single write call. -/
def World.sinkError (w : World) (ft : String → String) (cal : String) (i : Nat)
    (e : GoVal) (msg : String) (kvs : List GoVal) : World :=
  match w.touch i with
  | (none, w1) => w1
  | (some c, w1) => { w1 with output := w1.output ++ [(c.w, c.errorLine ft cal e msg kvs)] }

/-- The sink Enabled method: materialize, then consult the registry with
the memoized composed name. -/
def World.sinkEnabled (w : World) (r : Registry) (i : Nat) (level : Int) :
    Option Bool × World :=
  match w.touch i with
  | (none, w1) => (none, w1)
  | (some c, w1) => (some (enabledFor r c.name level), w1)

/-- Well-formedness of a world: one core slot per node, and every child
created after its parent (which the source guarantees since a child sink
holds a pointer to an already-existing parent). -/
def World.wf (w : World) : Prop :=
  w.cores.length = w.nodes.length ∧
  ∀ i p d, w.nodes[i]? = some (Node.child p d) → p < i

/-- Decidable well-formedness check for concrete worlds. -/
def World.wfB (w : World) : Bool :=
  (w.cores.length == w.nodes.length) &&
  (List.range w.nodes.length).all fun i =>
    match w.nodes[i]? with
    | some (Node.child p _) => decide (p < i)
    | _ => true

theorem wf_of_wfB (w : World) (h : w.wfB = true) : w.wf := by
  unfold World.wfB at h
  rw [Bool.and_eq_true] at h
  constructor
  · have hb := h.1
    simp only [beq_iff_eq] at hb
    exact hb
  · intro i p d hn
    have hi : i < w.nodes.length := by
      by_contra hge
      rw [List.getElem?_eq_none (by omega)] at hn
      exact Option.noConfusion hn
    have := List.all_eq_true.mp h.2 i (List.mem_range.mpr hi)
    rw [hn] at this
    exact of_decide_eq_true this

theorem lt_length_of_getElem?_some {α : Type} {l : List α} {i : Nat} {x : α}
    (h : l[i]? = some x) : i < l.length :=
  (List.getElem?_eq_some_iff.mp h).1

theorem instW_shape : ∀ (fuel : Nat) (w : World) (i : Nat),
    (instW fuel w i).nodes = w.nodes ∧ (instW fuel w i).goptions = w.goptions ∧
    (instW fuel w i).output = w.output ∧ (instW fuel w i).cores.length = w.cores.length
  | 0, _, _ => ⟨rfl, rfl, rfl, rfl⟩
  | fuel + 1, w, i => by
      simp only [instW]
      split
      · exact ⟨rfl, rfl, rfl, rfl⟩
      · exact ⟨rfl, rfl, rfl, rfl⟩
      · split
        · exact ⟨rfl, rfl, rfl, rfl⟩
        · exact ⟨rfl, rfl, rfl, by simp⟩
        · rename_i p d hnn
          have ih := instW_shape fuel w p
          split
          · exact ih
          · exact ⟨ih.1, ih.2.1, ih.2.2.1, by simp [ih.2.2.2]⟩

theorem instW_preserves_some : ∀ (fuel : Nat) (w : World) (i j : Nat) (c : Core),
    w.cores[j]? = some (some c) → (instW fuel w i).cores[j]? = some (some c)
  | 0, _, _, _, _, hj => hj
  | fuel + 1, w, i, j, c, hj => by
      simp only [instW]
      split
      · exact hj
      · exact hj
      · rename_i hcc
        have hij : i ≠ j := by
          intro he
          rw [he, hj] at hcc
          simp at hcc
        split
        · exact hj
        · show (w.cores.set i _)[j]? = _
          rw [List.getElem?_set_ne hij]
          exact hj
        · rename_i p d hnn
          have ih := instW_preserves_some fuel w p j c hj
          split
          · exact ih
          · show ((instW fuel w p).cores.set i _)[j]? = _
            rw [List.getElem?_set_ne hij]
            exact ih

theorem instVal_frame : ∀ (fuel : Nat) (w1 w2 : World) (i : Nat),
    i < w1.nodes.length → w1.wf →
    (∀ j, j < w1.nodes.length → w2.nodes[j]? = w1.nodes[j]?) →
    (∀ j, j < w1.nodes.length → w2.cores[j]? = w1.cores[j]?) →
    w2.goptions = w1.goptions →
    instVal fuel w2 i = instVal fuel w1 i
  | 0, _, _, _, _, _, _, _, _ => rfl
  | fuel + 1, w1, w2, i, hi, hwf, hn, hc, hg => by
      simp only [instVal]
      rw [hc i hi, hn i hi, hg]
      split
      · rfl
      · rfl
      · split
        · rfl
        · rfl
        · rename_i p d hnn
          have hp : p < i := hwf.2 i p d hnn
          rw [instVal_frame fuel w1 w2 p (by omega) hwf hn hc hg]

theorem instVal_succ_mono : ∀ (fuel : Nat) (w : World) (i : Nat) (c : Core),
    instVal fuel w i = some c → instVal (fuel + 1) w i = some c
  | 0, w, i, c, h => by simp [instVal] at h
  | fuel + 1, w, i, c, h => by
      rw [instVal] at h
      rw [show fuel + 1 + 1 = (fuel + 1) + 1 from rfl, instVal]
      split at h
      · exact absurd h (by simp)
      · exact h
      · split at h
        · exact absurd h (by simp)
        · exact h
        · rename_i p d hnn
          cases hv : instVal fuel w p with
          | none =>
            rw [hv] at h
            exact absurd h (by simp)
          | some pc =>
            rw [hv] at h
            rw [instVal_succ_mono fuel w p pc hv]
            exact h

theorem instVal_mono (f1 f2 : Nat) (w : World) (i : Nat) (c : Core)
    (hle : f1 ≤ f2) (h : instVal f1 w i = some c) : instVal f2 w i = some c := by
  obtain ⟨k, rfl⟩ := Nat.exists_eq_add_of_le hle
  clear hle
  induction k with
  | zero => exact h
  | succ k ih => exact instVal_succ_mono (f1 + k) w i c ih

theorem touch_materialized (w : World) (i : Nat) (c : Core)
    (h : w.cores[i]? = some (some c)) : w.touch i = (some c, w) := by
  unfold World.touch
  rw [show i + 1 = i + 1 from rfl]
  simp only [instVal, instW, h]

theorem wf_useOptions (w : World) (opts : Options) (hwf : w.wf) :
    (w.useOptions opts).wf := hwf

theorem wf_newSink (w : World) (hwf : w.wf) (i : Nat) (d : Deriv)
    (hi : i < w.nodes.length) : (w.newSink (Node.child i d)).1.wf := by
  constructor
  · show (w.cores ++ [none]).length = (w.nodes ++ [Node.child i d]).length
    simp [hwf.1]
  · intro j p d2 hj
    rcases Nat.lt_trichotomy j w.nodes.length with hlt | heq | hgt
    · rw [show (w.newSink (Node.child i d)).1.nodes = w.nodes ++ [Node.child i d] from rfl,
        List.getElem?_append_left hlt] at hj
      exact hwf.2 j p d2 hj
    · subst heq
      rw [show (w.newSink (Node.child i d)).1.nodes = w.nodes ++ [Node.child i d] from rfl,
        List.getElem?_concat_length] at hj
      simp only [Option.some.injEq, Node.child.injEq] at hj
      omega
    · rw [show (w.newSink (Node.child i d)).1.nodes = w.nodes ++ [Node.child i d] from rfl,
        List.getElem?_eq_none (by simp; omega)] at hj
      exact Option.noConfusion hj

theorem deriveChain_spec : ∀ (ds : List Deriv) (w : World) (i : Nat) (c : Core) (fuel : Nat),
    w.wf → i < w.nodes.length → fuel ≤ i + 1 → instVal fuel w i = some c →
    (w.deriveChain i ds).2 < (w.deriveChain i ds).1.nodes.length ∧
    (w.deriveChain i ds).1.wf ∧
    (w.deriveChain i ds).1.goptions = w.goptions ∧
    (w.deriveChain i ds).1.output = w.output ∧
    (∀ j, j < w.nodes.length →
      (w.deriveChain i ds).1.nodes[j]? = w.nodes[j]? ∧
      (w.deriveChain i ds).1.cores[j]? = w.cores[j]?) ∧
    instVal ((w.deriveChain i ds).2 + 1) (w.deriveChain i ds).1 (w.deriveChain i ds).2 =
      some (ds.foldl (fun a d => applyDeriv d a) c)
  | [], w, i, c, fuel, hwf, hi, hfi, hv => by
      refine ⟨hi, hwf, rfl, rfl, fun j _ => ⟨rfl, rfl⟩, ?_⟩
      exact instVal_mono fuel (i + 1) w i c hfi hv
  | d :: ds, w, i, c, fuel, hwf, hi, hfi, hv => by
      have hlen : w.cores.length = w.nodes.length := hwf.1
      have hwf2 : (w.newSink (Node.child i d)).1.wf := wf_newSink w hwf i d hi
      have hnodes2 : (w.newSink (Node.child i d)).1.nodes = w.nodes ++ [Node.child i d] := rfl
      have hcores2 : (w.newSink (Node.child i d)).1.cores = w.cores ++ [none] := rfl
      have hframe_n : ∀ j, j < w.nodes.length →
          (w.newSink (Node.child i d)).1.nodes[j]? = w.nodes[j]? := fun j hj => by
        rw [hnodes2, List.getElem?_append_left hj]
      have hframe_c : ∀ j, j < w.nodes.length →
          (w.newSink (Node.child i d)).1.cores[j]? = w.cores[j]? := fun j hj => by
        rw [hcores2, List.getElem?_append_left (by omega)]
      have hc0 : (w.newSink (Node.child i d)).1.cores[w.nodes.length]? = some none := by
        rw [hcores2, ← hlen, List.getElem?_concat_length]
      have hn0 : (w.newSink (Node.child i d)).1.nodes[w.nodes.length]? =
          some (Node.child i d) := by
        rw [hnodes2, List.getElem?_concat_length]
      have hv2 : instVal (fuel + 1) (w.newSink (Node.child i d)).1 w.nodes.length =
          some (applyDeriv d c) := by
        simp only [instVal, hc0, hn0]
        rw [instVal_frame fuel w (w.newSink (Node.child i d)).1 i hi hwf hframe_n hframe_c rfl,
          hv]
        rfl
      have hi2 : w.nodes.length < (w.newSink (Node.child i d)).1.nodes.length := by
        rw [hnodes2]
        simp
      have ih := deriveChain_spec ds (w.newSink (Node.child i d)).1 w.nodes.length
        (applyDeriv d c) (fuel + 1) hwf2 hi2 (by omega) hv2
      refine ⟨ih.1, ih.2.1, ih.2.2.1, ih.2.2.2.1, ?_, ih.2.2.2.2.2⟩
      intro j hj
      have hj2 : j < (w.newSink (Node.child i d)).1.nodes.length := by
        rw [hnodes2]
        simp
        omega
      obtain ⟨hn1, hc1⟩ := ih.2.2.2.2.1 j hj2
      exact ⟨hn1.trans (hframe_n j hj), hc1.trans (hframe_c j hj)⟩

theorem touch_snd_preserves (w : World) (i j : Nat) (c : Core)
    (hj : w.cores[j]? = some (some c)) : (w.touch i).2.cores[j]? = some (some c) :=
  instW_preserves_some (i + 1) w i j c hj

theorem chain_touch_val (w : World) (hwf : w.wf) (i : Nat) (c : Core)
    (hc : w.cores[i]? = some (some c)) (ds : List Deriv) :
    ((w.deriveChain i ds).1.touch (w.deriveChain i ds).2).1 =
      some (ds.foldl (fun a d => applyDeriv d a) c) ∧
    ((w.deriveChain i ds).1.touch (w.deriveChain i ds).2).2.cores[i]? = some (some c) ∧
    ((w.deriveChain i ds).1.touch (w.deriveChain i ds).2).2.output = w.output := by
  have hi : i < w.cores.length := lt_length_of_getElem?_some hc
  have hi2 : i < w.nodes.length := by rw [← hwf.1]; exact hi
  have hv1 : instVal 1 w i = some c := by simp [instVal, hc]
  have h := deriveChain_spec ds w i c 1 hwf hi2 (by omega) hv1
  refine ⟨h.2.2.2.2.2, ?_, ?_⟩
  · have hcore : (w.deriveChain i ds).1.cores[i]? = some (some c) := by
      rw [(h.2.2.2.2.1 i hi2).2]
      exact hc
    exact instW_preserves_some _ _ _ _ _ hcore
  · have hout := (instW_shape ((w.deriveChain i ds).2 + 1) (w.deriveChain i ds).1
      (w.deriveChain i ds).2).2.2.1
    show (instW _ _ _).output = _
    rw [hout, h.2.2.2.1]

theorem sinkInfo_materialized (w : World) (i : Nat) (c : Core)
    (hc : w.cores[i]? = some (some c)) (ft : String → String) (cal : String)
    (lvl : Int) (msg : String) (kvs : List GoVal) :
    (w.sinkInfo ft cal i lvl msg kvs).output =
      w.output ++ [(c.w, c.infoLine ft cal lvl msg kvs)] := by
  unfold World.sinkInfo
  rw [touch_materialized w i c hc]

theorem sinkError_materialized (w : World) (i : Nat) (c : Core)
    (hc : w.cores[i]? = some (some c)) (ft : String → String) (cal : String)
    (e : GoVal) (msg : String) (kvs : List GoVal) :
    (w.sinkError ft cal i e msg kvs).output =
      w.output ++ [(c.w, c.errorLine ft cal e msg kvs)] := by
  unfold World.sinkError
  rw [touch_materialized w i c hc]

theorem sinkEnabled_materialized (w : World) (r : Registry) (i : Nat) (c : Core)
    (hc : w.cores[i]? = some (some c)) (lvl : Int) :
    (w.sinkEnabled r i lvl).1 = some (enabledFor r c.name lvl) := by
  unfold World.sinkEnabled
  rw [touch_materialized w i c hc]

/-- One observable action on the process state: a registry options update,
a sink creation, a materializing use (Enabled, Info or Error), or a log
write. -/
inductive Ev
  | useOpts (opts : Options)
  | mkSink (n : Node)
  | touchEv (i : Nat)
  | infoEv (ft : String → String) (cal : String) (i : Nat) (lvl : Int)
      (msg : String) (kvs : List GoVal)
  | errEv (ft : String → String) (cal : String) (i : Nat) (e : GoVal)
      (msg : String) (kvs : List GoVal)
  | enabledEv (r : Registry) (i : Nat) (lvl : Int)

/-- Run one event against the world. -/
def stepEv (w : World) : Ev → World
  | .useOpts o => w.useOptions o
  | .mkSink n => (w.newSink n).1
  | .touchEv i => (w.touch i).2
  | .infoEv ft cal i lvl msg kvs => w.sinkInfo ft cal i lvl msg kvs
  | .errEv ft cal i e msg kvs => w.sinkError ft cal i e msg kvs
  | .enabledEv r i lvl => (w.sinkEnabled r i lvl).2

/-- Run a sequence of events against the world. -/
def runEv (w : World) (es : List Ev) : World :=
  es.foldl stepEv w

theorem stepEv_preserves_some (w : World) (e : Ev) (j : Nat) (c : Core)
    (hj : w.cores[j]? = some (some c)) : (stepEv w e).cores[j]? = some (some c) := by
  cases e with
  | useOpts o => exact hj
  | mkSink n =>
    show (w.cores ++ [none])[j]? = _
    rw [List.getElem?_append_left (lt_length_of_getElem?_some hj)]
    exact hj
  | touchEv i => exact touch_snd_preserves w i j c hj
  | infoEv ft cal i lvl msg kvs =>
    show (w.sinkInfo ft cal i lvl msg kvs).cores[j]? = _
    unfold World.sinkInfo
    split
    · rename_i w1 heq
      have hw1 : w1 = (w.touch i).2 := by rw [heq]
      rw [hw1]
      exact touch_snd_preserves w i j c hj
    · rename_i c2 w1 heq
      have hw1 : w1 = (w.touch i).2 := by rw [heq]
      show w1.cores[j]? = _
      rw [hw1]
      exact touch_snd_preserves w i j c hj
  | errEv ft cal i e2 msg kvs =>
    show (w.sinkError ft cal i e2 msg kvs).cores[j]? = _
    unfold World.sinkError
    split
    · rename_i w1 heq
      have hw1 : w1 = (w.touch i).2 := by rw [heq]
      rw [hw1]
      exact touch_snd_preserves w i j c hj
    · rename_i c2 w1 heq
      have hw1 : w1 = (w.touch i).2 := by rw [heq]
      show w1.cores[j]? = _
      rw [hw1]
      exact touch_snd_preserves w i j c hj
  | enabledEv r i lvl =>
    show ((w.sinkEnabled r i lvl).2).cores[j]? = _
    unfold World.sinkEnabled
    split
    · rename_i w1 heq
      have hw1 : w1 = (w.touch i).2 := by rw [heq]
      show w1.cores[j]? = _
      rw [hw1]
      exact touch_snd_preserves w i j c hj
    · rename_i c2 w1 heq
      have hw1 : w1 = (w.touch i).2 := by rw [heq]
      show w1.cores[j]? = _
      rw [hw1]
      exact touch_snd_preserves w i j c hj

theorem runEv_preserves_some (es : List Ev) : ∀ (w : World) (j : Nat) (c : Core),
    w.cores[j]? = some (some c) → (runEv w es).cores[j]? = some (some c) := by
  induction es with
  | nil => exact fun w j c h => h
  | cons e es ih => exact fun w j c h => ih (stepEv w e) j c (stepEv_preserves_some w e j c h)

/-- Claim C1: a handle's configuration is frozen at its first materializing
use.  For a materialized handle h with memoized core c: (1) no further
event sequence (registry updates, derivations, uses, writes) ever changes
h's core; (2) after UseOptions(opts) each log line of h is still built
from c, independent of opts; (3) every chain of handles derived from h
materializes by folding its derivations over c, with the updated default
options playing no role, and leaves h's core intact; whereas (4) a chain
derived from a still-deferred root and first used after UseOptions(opts)
materializes from the options opts. -/
theorem c1_deferred_freeze (w : World) (hwf : w.wf) (i : Nat) (c : Core)
    (hc : w.cores[i]? = some (some c)) :
    (∀ es : List Ev, (runEv w es).cores[i]? = some (some c)) ∧
    (∀ (opts : Options) (ft : String → String) (cal : String) (lvl : Int)
        (msg : String) (kvs : List GoVal),
      ((w.useOptions opts).sinkInfo ft cal i lvl msg kvs).output =
        w.output ++ [(c.w, c.infoLine ft cal lvl msg kvs)]) ∧
    (∀ (opts : Options) (ds : List Deriv),
      (((w.useOptions opts).deriveChain i ds).1.touch
          ((w.useOptions opts).deriveChain i ds).2).1 =
        some (ds.foldl (fun a d => applyDeriv d a) c) ∧
      (((w.useOptions opts).deriveChain i ds).1.touch
          ((w.useOptions opts).deriveChain i ds).2).2.cores[i]? = some (some c)) ∧
    (∀ (opts : Options) (r : Nat) (dfn : Option Deriv) (ds : List Deriv),
      w.nodes[r]? = some (Node.root dfn) → w.cores[r]? = some none →
      (((w.useOptions opts).deriveChain r ds).1.touch
          ((w.useOptions opts).deriveChain r ds).2).1 =
        some (ds.foldl (fun a d => applyDeriv d a) (rootCore opts dfn))) := by
  refine ⟨fun es => runEv_preserves_some es w i c hc, ?_, ?_, ?_⟩
  · intro opts ft cal lvl msg kvs
    exact sinkInfo_materialized (w.useOptions opts) i c hc ft cal lvl msg kvs
  · intro opts ds
    have h := chain_touch_val (w.useOptions opts) (wf_useOptions w opts hwf) i c hc ds
    exact ⟨h.1, h.2.1⟩
  · intro opts r dfn ds hnr hcr
    have hr : r < w.nodes.length := lt_length_of_getElem?_some hnr
    have hv1 : instVal 1 (w.useOptions opts) r = some (rootCore opts dfn) := by
      simp [instVal, World.useOptions, hcr, hnr]
    have h := deriveChain_spec ds (w.useOptions opts) r (rootCore opts dfn) 1
      (wf_useOptions w opts hwf) hr (by omega) hv1
    exact h.2.2.2.2.2

/-- The pre-update options used by the concrete freeze scenario. -/
def optsNew : Options := { defaultOptions with humanize := true }

/-- The core a root materialized under the default options holds. -/
def cOldW : Core := coreZero.applyOptions defaultOptions

/-- Concrete world for the freeze scenario: sink 0 is a root already
materialized under the default options, sink 1 is a still-deferred root. -/
def wC1 : World :=
  { nodes := [Node.root none, Node.root none]
    cores := [some cOldW, none]
    goptions := defaultOptions
    output := [] }

/-- Witness for claim C1: in the concrete scenario the materialized root
keeps its pre-update core across an options update and a re-use, a child
derived from it copies the frozen core, and a child of the still-deferred
root picks up the new options. -/
theorem c1_deferred_freeze_witness :
    (runEv wC1 [Ev.useOpts optsNew, Ev.touchEv 0]).cores[0]? = some (some cOldW) ∧
    (((wC1.useOptions optsNew).deriveChain 0 [Deriv.withName "a"]).1.touch
        ((wC1.useOptions optsNew).deriveChain 0 [Deriv.withName "a"]).2).1 =
      some (cOldW.appendName "a") ∧
    (((wC1.useOptions optsNew).deriveChain 1 [Deriv.withName "a"]).1.touch
        ((wC1.useOptions optsNew).deriveChain 1 [Deriv.withName "a"]).2).1 =
      some ((coreZero.applyOptions optsNew).appendName "a") := by
  have h := c1_deferred_freeze wC1 (wf_of_wfB wC1 (by decide)) 0 cOldW rfl
  exact ⟨h.1 [Ev.useOpts optsNew, Ev.touchEv 0],
    (h.2.2.1 optsNew [Deriv.withName "a"]).1,
    h.2.2.2 optsNew 1 none [Deriv.withName "a"] rfl rfl⟩

/-- Claim C2: derivations never mutate a materialized core.  For a
materialized handle p with core c and any derivation d, the derived handle
materializes to an independent value copy applyDeriv d c; p's stored core
is bit-identical afterwards; and p's Enabled answer and the bytes of every
line p writes are the same before and after creating and using the derived
handle. -/
theorem c2_derivation_no_mutation (w : World) (hwf : w.wf) (p : Nat) (c : Core)
    (hc : w.cores[p]? = some (some c)) (d : Deriv) (ft : String → String) (cal : String) :
    ((w.newSink (Node.child p d)).1.touch (w.newSink (Node.child p d)).2).1 =
      some (applyDeriv d c) ∧
    ((w.newSink (Node.child p d)).1.touch (w.newSink (Node.child p d)).2).2.cores[p]? =
      some (some c) ∧
    (∀ (r : Registry) (lvl : Int),
      (((w.newSink (Node.child p d)).1.touch
          (w.newSink (Node.child p d)).2).2.sinkEnabled r p lvl).1 =
        some (enabledFor r c.name lvl) ∧
      (w.sinkEnabled r p lvl).1 = some (enabledFor r c.name lvl)) ∧
    (∀ (lvl : Int) (msg : String) (kvs : List GoVal),
      (((w.newSink (Node.child p d)).1.touch
          (w.newSink (Node.child p d)).2).2.sinkInfo ft cal p lvl msg kvs).output =
        ((w.newSink (Node.child p d)).1.touch
          (w.newSink (Node.child p d)).2).2.output ++
          [(c.w, c.infoLine ft cal lvl msg kvs)] ∧
      (w.sinkInfo ft cal p lvl msg kvs).output =
        w.output ++ [(c.w, c.infoLine ft cal lvl msg kvs)]) := by
  have h := chain_touch_val w hwf p c hc [d]
  refine ⟨h.1, h.2.1, ?_, ?_⟩
  · intro r lvl
    exact ⟨sinkEnabled_materialized _ r p c h.2.1 lvl,
      sinkEnabled_materialized w r p c hc lvl⟩
  · intro lvl msg kvs
    exact ⟨sinkInfo_materialized _ p c h.2.1 ft cal lvl msg kvs,
      sinkInfo_materialized w p c hc ft cal lvl msg kvs⟩

/-- Concrete world for the no-mutation scenario: one root sink, already
materialized under the default options. -/
def wC2 : World :=
  { nodes := [Node.root none]
    cores := [some cOldW]
    goptions := defaultOptions
    output := [] }

/-- Witness for claim C2 at a concrete WithValues derivation: the child
materializes to the parent core extended with the flattened context, the
parent core is unchanged, and the parent's Enabled answer and Info line are
the same before and after. -/
theorem c2_derivation_no_mutation_witness :
    ((wC2.newSink (Node.child 0 (Deriv.withValues
        [GoVal.str "user", GoVal.str "you"]))).1.touch
      (wC2.newSink (Node.child 0 (Deriv.withValues
        [GoVal.str "user", GoVal.str "you"]))).2).1 =
      some { cOldW with values := "user=you" } ∧
    ((wC2.newSink (Node.child 0 (Deriv.withValues
        [GoVal.str "user", GoVal.str "you"]))).1.touch
      (wC2.newSink (Node.child 0 (Deriv.withValues
        [GoVal.str "user", GoVal.str "you"]))).2).2.cores[0]? =
      some (some cOldW) ∧
    (wC2.sinkEnabled {} 0 0).1 = some true := by
  have h := c2_derivation_no_mutation wC2 (wf_of_wfB wC2 (by decide)) 0 cOldW rfl
    (Deriv.withValues [GoVal.str "user", GoVal.str "you"]) (fun _ => "T") "f.go:1"
  refine ⟨?_, h.2.1, ?_⟩
  · rw [h.1]
    decide
  · rw [(h.2.2.1 {} 0).2]
    decide

/-- Claim C4: a machine-layout line is exactly the level token, then the
quoted logger name (iff the name is non-empty), then the quoted formatted
timestamp (iff a timestamp format is configured), then the quoted message,
then the caller (iff caller capture is on), then the extras, then the
accumulated WithValues context, then the call-site kvs, terminated by a
newline; and each Info call on a materialized handle appends exactly one
such element to the destination's write stream. -/
theorem c4_machine_layout (c : Core) (hh : c.humanize = false)
    (ft : String → String) (cal : String) (lvl : Int) (hp msg values : String)
    (extras : List GoVal) :
    c.writeLine ft cal lvl hp msg values extras =
      "level=" ++ toString lvl ++
      (if c.name = "" then "" else " " ++ "logger=" ++ quote c.name) ++
      (if c.tsFormat = "" then "" else " " ++ "ts=" ++ quote (ft c.tsFormat)) ++
      (" " ++ "msg=" ++ quote msg) ++
      (if c.addCaller then " " ++ "caller=" ++ cal else "") ++
      (if extras = [] then "" else " " ++ c.flatten extras) ++
      (if c.values = "" then "" else " " ++ c.values) ++
      (if values = "" then "" else " " ++ values) ++ "\n" ∧
    (∀ (w : World) (i : Nat) (kvs : List GoVal),
      w.cores[i]? = some (some c) →
      (w.sinkInfo ft cal i lvl msg kvs).output =
        w.output ++ [(c.w, c.infoLine ft cal lvl msg kvs)]) := by
  refine ⟨writeLine_machine c ft cal lvl hp msg values extras hh, ?_⟩
  intro w i kvs hw
  exact sinkInfo_materialized w i c hw ft cal lvl msg kvs

/-- Concrete machine-layout core exercising every optional token. -/
def cC4 : Core :=
  { coreZero with
    name := "sun"
    tsFormat := "f"
    addCaller := true
    values := "user=you" }

/-- Concrete world for the atomic-write part of the C4 witness. -/
def wC4 : World :=
  { nodes := [Node.root none]
    cores := [some cC4]
    goptions := defaultOptions
    output := [] }

/-- Witness for claim C4: the concrete line shows every token in order and
the Info call appends it as one write. -/
theorem c4_machine_layout_witness :
    cC4.writeLine (fun _ => "T") "main.go:9" 2 "info" "hello" "a=1" [] =
      "level=2 logger=sun ts=T msg=hello caller=main.go:9 user=you a=1\n" ∧
    (wC4.sinkInfo (fun _ => "T") "main.go:9" 0 2 "hello" []).output =
      [(cC4.w, cC4.infoLine (fun _ => "T") "main.go:9" 2 "hello" [])] := by
  have h := c4_machine_layout cC4 rfl (fun _ => "T") "main.go:9" 2 "info" "hello" "a=1" []
  constructor
  · rw [h.1]
    decide
  · rw [h.2 wC4 0 [] rfl]
    rfl

/-- Claim C9: Error with a nil error does not panic — in this total model
the nil interface takes the generic-fallback branch of the stringify type
switch, which a nil interface value reaches because it matches no type
case — even as the first call on a deferred handle, and the error token
renders as the literal text of a nil error.  The first conjunct runs the
whole pipeline on a fresh deferred root; the remaining conjuncts pin the
rendering down to the error-token text inside the emitted line. -/
theorem c9_error_nil (g : Options) (hh : g.humanize = false)
    (ft : String → String) (cal : String) (msg : String) (kvs : List GoVal) :
    (World.sinkError
        { nodes := [Node.root none], cores := [none], goptions := g, output := [] }
        ft cal 0 GoVal.nilv msg kvs).output =
      [(g.writer, (coreZero.applyOptions g).errorLine ft cal GoVal.nilv msg kvs)] ∧
    stringify GoVal.nilv = "<nil>" ∧
    (coreZero.applyOptions g).flatten [GoVal.str "error", GoVal.nilv] = "error=<nil>" ∧
    (∃ pre post, (coreZero.applyOptions g).errorLine ft cal GoVal.nilv msg kvs =
      pre ++ " error=<nil>" ++ post) := by
  have hcol : (coreZero.applyOptions g).colorize = false := by
    simp [Core.applyOptions, coreZero, hh]
  have hh2 : (coreZero.applyOptions g).humanize = false := by
    simp [Core.applyOptions, coreZero, hh]
  have hflat : (coreZero.applyOptions g).flatten [GoVal.str "error", GoVal.nilv] =
      "error=<nil>" := by
    show (coreZero.applyOptions g).key (stringify (GoVal.str "error")) ++ "=" ++
      stringify GoVal.nilv = _
    rw [key_of_not_colorize _ hcol]
    decide
  refine ⟨rfl, rfl, hflat, ?_⟩
  rw [Core.errorLine,
    writeLine_machine (coreZero.applyOptions g) ft cal 0 "error" msg
      ((coreZero.applyOptions g).flatten kvs) [GoVal.str "error", GoVal.nilv] hh2]
  refine ⟨"level=" ++ toString (0 : Int) ++
    (if (coreZero.applyOptions g).name = "" then ""
      else " " ++ "logger=" ++ quote (coreZero.applyOptions g).name) ++
    (if (coreZero.applyOptions g).tsFormat = "" then ""
      else " " ++ "ts=" ++ quote (ft (coreZero.applyOptions g).tsFormat)) ++
    (" " ++ "msg=" ++ quote msg) ++
    (if (coreZero.applyOptions g).addCaller then " " ++ "caller=" ++ cal else ""),
    (if (coreZero.applyOptions g).values = "" then ""
      else " " ++ (coreZero.applyOptions g).values) ++
    (if (coreZero.applyOptions g).flatten kvs = "" then ""
      else " " ++ (coreZero.applyOptions g).flatten kvs) ++ "\n", ?_⟩
  rw [hflat]
  simp only [String.append_assoc, List.cons_ne_self]
  simp [str_append_empty, str_empty_append, String.append_assoc]

/-- Witness for claim C9 on a fresh deferred root with the default options:
the Error(nil, ...) call emits one line through the full pipeline and the
nil error renders as its literal text. -/
theorem c9_error_nil_witness :
    (World.sinkError
        { nodes := [Node.root none], cores := [none],
          goptions := defaultOptions, output := [] }
        (fun _ => "T") "main.go:3" 0 GoVal.nilv "uh oh"
        [GoVal.str "trouble", GoVal.other "true"]).output =
      [(0, (coreZero.applyOptions defaultOptions).errorLine (fun _ => "T") "main.go:3"
        GoVal.nilv "uh oh" [GoVal.str "trouble", GoVal.other "true"])] ∧
    stringify GoVal.nilv = "<nil>" ∧
    (coreZero.applyOptions defaultOptions).errorLine (fun _ => "T") "main.go:3"
        GoVal.nilv "uh oh" [GoVal.str "trouble", GoVal.other "true"] =
      "level=0 ts=T msg=\"uh oh\" error=<nil> trouble=true\n" := by
  have h := c9_error_nil defaultOptions rfl (fun _ => "T") "main.go:3" "uh oh"
    [GoVal.str "trouble", GoVal.other "true"]
  exact ⟨h.1, h.2.1, by decide⟩

end Logfmtr
